import Mathlib

/-!
Verification of a growable, contiguous sequence container (a small Rust `Vec`
reimplementation, `src/lib.rs` and `src/main.rs`).

The container stores elements in a backing allocation of `cap` slots, of which
the first `len` are initialized.  We embed a container state as the list of its
initialized slots (slot `i` of the memory is position `i` of the list) together
with the capacity.  Fatal conditions (assertion failures / panics) are embedded
as `Except.error` carrying the panic message; `pop`'s representable absence is
an `Option`.  The raw double-ended iterator, which in the source is a pair of
pointers `start`/`end` into the buffer, is embedded as a pair of slot indices
into the buffer contents captured at iterator creation.
-/

namespace RustVec

/-- Capacity evolution of `RawVec::grow` (`src/lib.rs` lines 37-60; the same
logic appears in `Vec::grow` of `src/main.rs`): a first growth from capacity 0
yields capacity 1, any later growth doubles the capacity.  The byte-size
overflow check of `grow` depends on `size_of::<T>()` and is modelled
separately by `growChecked`. -/
def growCap (cap : Nat) : Nat :=
  if cap = 0 then 1 else cap * 2

/-- The largest value of `isize` on the 64-bit platform: `std::isize::MAX`. -/
def isizeMax : Nat := 2 ^ 63 - 1

/-- `RawVec::grow` with its capacity-overflow check (`src/lib.rs` lines 37-60).
`sz` is `mem::size_of::<T>()`.  When `cap = 0` the code allocates one element
(`Layout::new::<T>()`) without a size check; otherwise it computes
`new_cap = cap * 2`, builds `Layout::array::<T>(new_cap)` whose byte size is
`new_cap * sz`, and panics with "capacity overflow" when that byte size is
`>= isize::MAX`.  Allocator exhaustion (`rust_oom`) is outside the model. -/
def growChecked (sz cap : Nat) : Except String Nat :=
  if cap = 0 then
    Except.ok 1
  else
    let newCap := cap * 2
    if newCap * sz ≥ isizeMax then Except.error "capacity overflow"
    else Except.ok newCap

/-- The container `Vec<T>` (`src/lib.rs` lines 63-66): the backing `RawVec` is
abstracted to its capacity `cap`, and the initialized slots `[0, len)` are the
list `data` (so `data.length` embeds `len`). -/
structure Vec (T : Type) where
  data : List T
  cap : Nat
deriving DecidableEq, Repr

/-- `Vec::new`: empty contents, capacity 0, no allocation. -/
def Vec.new {T : Type} : Vec T := ⟨[], 0⟩

/-- `Vec::push` (`src/lib.rs` lines 80-86): grow when full, write the element
into slot `len`, increment `len`. -/
def Vec.push {T : Type} (v : Vec T) (x : T) : Vec T :=
  let cap := if v.cap = v.data.length then growCap v.cap else v.cap
  { data := v.data ++ [x], cap := cap }

/-- `Vec::pop` (`src/lib.rs` lines 88-95): on empty return `None`; otherwise
decrement `len` and read the value out of the last initialized slot. -/
def Vec.pop {T : Type} (v : Vec T) : Option T × Vec T :=
  if v.data.length = 0 then (none, v)
  else (v.data.getLast?, { v with data := v.data.dropLast })

/-- `Vec::insert` (`src/lib.rs` lines 97-110): assert `index <= len` (panic
"index out of bounds" otherwise), grow when full, shift slots `[index, len)`
one position up, write the element into slot `index`, increment `len`.  On the
slot list the shift-and-write is `take index ++ elem :: drop index`. -/
def Vec.insert {T : Type} (v : Vec T) (index : Nat) (elem : T) :
    Except String (Vec T) :=
  if index ≤ v.data.length then
    let cap := if v.data.length = v.cap then growCap v.cap else v.cap
    Except.ok { data := v.data.take index ++ elem :: v.data.drop index, cap := cap }
  else
    Except.error "index out of bounds"

/-- `Vec::remove` (`src/lib.rs` lines 111-120): assert `index < len` (panic
"index out of bounds" otherwise), decrement `len`, read the value out of slot
`index`, shift slots `(index, old len)` one position down.  On the slot list
the read-and-shift yields `take index ++ drop (index+1)`. -/
def Vec.remove {T : Type} (v : Vec T) (index : Nat) :
    Except String (T × Vec T) :=
  if h : index < v.data.length then
    Except.ok (v.data.get ⟨index, h⟩,
      { v with data := v.data.take index ++ v.data.drop (index + 1) })
  else
    Except.error "index out of bounds"

/-- Repeated `pop`: pop `n` times, collecting the values yielded while the
container is nonempty (the loop a caller would write around `Vec::pop`). -/
def Vec.popN {T : Type} : Nat → Vec T → List T × Vec T
  | 0, v => ([], v)
  | n + 1, v =>
    let p := v.pop
    match p.1 with
    | some x => let q := Vec.popN n p.2; (x :: q.1, q.2)
    | none => ([], p.2)

/-- `RawIter<T>` (`src/lib.rs` lines 145-148): a pair of raw pointers
`start`/`end` into a contiguous buffer.  We embed the buffer contents at
iterator creation as `buf` and the two pointers as slot indices: `start` is
the index of the next element to yield forward, `stop` (the source's `end`)
is one past the next element to yield backward. -/
structure RawIter (T : Type) where
  buf : List T
  start : Nat
  stop : Nat
deriving DecidableEq, Repr

/-- `RawIter::new` (`src/lib.rs` lines 150-156): `start` at the slice's base,
`end` one past its last element. -/
def RawIter.new {T : Type} (slice : List T) : RawIter T :=
  ⟨slice, 0, slice.length⟩

/-- `RawIter` as `Iterator`, `next` (`src/lib.rs` lines 173-185): when
`start == end` the iterator is exhausted and yields `None`; otherwise read the
element at `start` and advance `start`. -/
def RawIter.next {T : Type} (it : RawIter T) : Option T × RawIter T :=
  if it.start = it.stop then (none, it)
  else (it.buf[it.start]?, { it with start := it.start + 1 })

/-- `RawIter` as `DoubleEndedIterator`, `next_back` (`src/lib.rs` lines
159-171): when `start == end` yield `None`; otherwise retreat `end` and read
the element there. -/
def RawIter.next_back {T : Type} (it : RawIter T) : Option T × RawIter T :=
  if it.start = it.stop then (none, it)
  else (it.buf[it.stop - 1]?, { it with stop := it.stop - 1 })

/-- `RawIter::size_hint` (`src/lib.rs` lines 186-189): the pointer difference
`(end - start) / size_of::<T>()` is the slot-index difference, returned as
both the lower and the upper bound. -/
def RawIter.size_hint {T : Type} (it : RawIter T) : Nat × Option Nat :=
  (it.stop - it.start, some (it.stop - it.start))

/-- The elements an iterator has not yet yielded: the slots in
`[start, stop)` of its buffer. -/
def RawIter.remaining {T : Type} (it : RawIter T) : List T :=
  (it.buf.take it.stop).drop it.start

/-- Well-formedness of an iterator: the front pointer is not past the back
pointer and the back pointer is not past the end of the buffer.  Holds for
every iterator the source constructs. -/
def RawIter.wf {T : Type} (it : RawIter T) : Prop :=
  it.start ≤ it.stop ∧ it.stop ≤ it.buf.length

instance {T : Type} (it : RawIter T) : Decidable it.wf :=
  inferInstanceAs (Decidable (_ ∧ _))

/-- Run a sequence of pulls against a `RawIter`: `true` is a forward pull
(`next`), `false` a backward pull (`next_back`).  Returns the values yielded
forward in yield order, the values yielded backward in yield order, and the
final iterator state. -/
def runPulls {T : Type} : List Bool → RawIter T → List T × List T × RawIter T
  | [], it => ([], [], it)
  | true :: ds, it =>
    let p := it.next
    let r := runPulls ds p.2
    match p.1 with
    | some x => (x :: r.1, r.2.1, r.2.2)
    | none => r
  | false :: ds, it =>
    let p := it.next_back
    let r := runPulls ds p.2
    match p.1 with
    | some x => (r.1, x :: r.2.1, r.2.2)
    | none => r

theorem RawIter.remaining_new {T : Type} (slice : List T) :
    (RawIter.new slice).remaining = slice := by
  simp [RawIter.new, RawIter.remaining]

theorem RawIter.wf_new {T : Type} (slice : List T) : (RawIter.new slice).wf :=
  ⟨Nat.zero_le _, le_refl _⟩

theorem RawIter.length_remaining {T : Type} (it : RawIter T) (h : it.wf) :
    it.remaining.length = it.stop - it.start := by
  simp [RawIter.remaining, List.length_take, Nat.min_eq_left h.2]

theorem RawIter.next_exhausted {T : Type} (it : RawIter T)
    (h : it.start = it.stop) :
    it.next = (none, it) ∧ it.next_back = (none, it) := by
  constructor <;> simp [RawIter.next, RawIter.next_back, h]

theorem RawIter.next_of_lt {T : Type} (it : RawIter T) (hwf : it.wf)
    (h : it.start < it.stop) :
    ∃ x it', it.next = (some x, it') ∧ it'.wf ∧
      it.remaining = x :: it'.remaining ∧ it'.buf = it.buf ∧
      it'.stop = it.stop := by
  have hlen : it.start < it.buf.length := lt_of_lt_of_le h hwf.2
  refine ⟨it.buf[it.start], { it with start := it.start + 1 }, ?_, ⟨h, hwf.2⟩, ?_, rfl, rfl⟩
  · simp [RawIter.next, Nat.ne_of_lt h, List.getElem?_eq_getElem hlen]
  · have htake : it.start < (it.buf.take it.stop).length := by
      simp [List.length_take]; omega
    simp only [RawIter.remaining]
    rw [List.drop_eq_getElem_cons htake, List.getElem_take]

theorem RawIter.next_back_of_lt {T : Type} (it : RawIter T) (hwf : it.wf)
    (h : it.start < it.stop) :
    ∃ x it', it.next_back = (some x, it') ∧ it'.wf ∧
      it.remaining = it'.remaining ++ [x] ∧ it'.buf = it.buf ∧
      it'.start = it.start := by
  obtain ⟨h1, h2⟩ := hwf
  have hlen : it.stop - 1 < it.buf.length := by omega
  refine ⟨it.buf[it.stop - 1], { it with stop := it.stop - 1 },
    ?_, ⟨show it.start ≤ it.stop - 1 by omega, show it.stop - 1 ≤ it.buf.length by omega⟩,
    ?_, rfl, rfl⟩
  · simp [RawIter.next_back, Nat.ne_of_lt h, List.getElem?_eq_getElem hlen]
  · simp only [RawIter.remaining]
    have hs : it.stop - 1 + 1 = it.stop := by omega
    conv_lhs => rw [← hs]
    rw [List.take_succ, List.getElem?_eq_getElem hlen]
    simp only [Option.toList_some]
    rw [List.drop_append_of_le_length]
    simp [List.length_take]; omega

/-- Core accounting of interleaved pulls: any pull sequence splits the
remaining elements into the forward yields (a prefix, in order), the elements
still unyielded, and the backward yields (a suffix, in reverse order). -/
theorem runPulls_decomp {T : Type} (ds : List Bool) (it : RawIter T)
    (hwf : it.wf) :
    (runPulls ds it).2.2.wf ∧
      (runPulls ds it).1 ++ (runPulls ds it).2.2.remaining ++
        (runPulls ds it).2.1.reverse = it.remaining := by
  induction ds generalizing it with
  | nil => exact ⟨hwf, by simp [runPulls]⟩
  | cons d ds ih =>
    cases d with
    | true =>
      rcases Nat.lt_or_ge it.start it.stop with hlt | hge
      · obtain ⟨x, it', hnext, hwf', hrem, -, -⟩ := RawIter.next_of_lt it hwf hlt
        have := ih it' hwf'
        simp only [runPulls, hnext]
        refine ⟨this.1, ?_⟩
        simp only [List.cons_append, this.2, hrem]
      · have heq : it.start = it.stop := le_antisymm hwf.1 hge
        have hnext := (RawIter.next_exhausted it heq).1
        have := ih it hwf
        simp only [runPulls, hnext]
        exact this
    | false =>
      rcases Nat.lt_or_ge it.start it.stop with hlt | hge
      · obtain ⟨x, it', hnext, hwf', hrem, -, -⟩ := RawIter.next_back_of_lt it hwf hlt
        have := ih it' hwf'
        simp only [runPulls, hnext]
        refine ⟨this.1, ?_⟩
        simp only [List.reverse_cons, hrem, ← this.2]
        simp
      · have heq : it.start = it.stop := le_antisymm hwf.1 hge
        have hnext := (RawIter.next_exhausted it heq).2
        have := ih it hwf
        simp only [runPulls, hnext]
        exact this

theorem runPulls_replicate_true {T : Type} :
    ∀ (n : Nat) (it : RawIter T), it.wf → it.stop - it.start = n →
      ∃ fin, runPulls (List.replicate n true) it = (it.remaining, [], fin) ∧
        fin.wf ∧ fin.remaining = []
  | 0, it, hwf, hn => by
    have hrem : it.remaining = [] := by
      have := RawIter.length_remaining it hwf
      rw [hn] at this
      exact List.eq_nil_of_length_eq_zero this
    exact ⟨it, by simp [runPulls, hrem], hwf, hrem⟩
  | n + 1, it, hwf, hn => by
    have hlt : it.start < it.stop := by omega
    obtain ⟨x, it', hnext, hwf', hrem, -, hstop⟩ := RawIter.next_of_lt it hwf hlt
    have hn' : it'.stop - it'.start = n := by
      have h1 := RawIter.length_remaining it hwf
      have h2 := RawIter.length_remaining it' hwf'
      rw [hrem] at h1
      simp only [List.length_cons] at h1
      omega
    obtain ⟨fin, hrun, hfwf, hfin⟩ := runPulls_replicate_true n it' hwf' hn'
    refine ⟨fin, ?_, hfwf, hfin⟩
    simp [List.replicate_succ, runPulls, hnext, hrun, hrem]

theorem runPulls_replicate_false {T : Type} :
    ∀ (n : Nat) (it : RawIter T), it.wf → it.stop - it.start = n →
      ∃ fin, runPulls (List.replicate n false) it = ([], it.remaining.reverse, fin) ∧
        fin.wf ∧ fin.remaining = []
  | 0, it, hwf, hn => by
    have hrem : it.remaining = [] := by
      have := RawIter.length_remaining it hwf
      rw [hn] at this
      exact List.eq_nil_of_length_eq_zero this
    exact ⟨it, by simp [runPulls, hrem], hwf, hrem⟩
  | n + 1, it, hwf, hn => by
    have hlt : it.start < it.stop := by omega
    obtain ⟨x, it', hnext, hwf', hrem, -, hstart⟩ := RawIter.next_back_of_lt it hwf hlt
    have hn' : it'.stop - it'.start = n := by
      have h1 := RawIter.length_remaining it hwf
      have h2 := RawIter.length_remaining it' hwf'
      rw [hrem] at h1
      simp only [List.length_append, List.length_singleton] at h1
      omega
    obtain ⟨fin, hrun, hfwf, hfin⟩ := runPulls_replicate_false n it' hwf' hn'
    refine ⟨fin, ?_, hfwf, hfin⟩
    simp [List.replicate_succ, runPulls, hnext, hrun, hrem]

theorem RawIter.exhausted_of_remaining_nil {T : Type} (it : RawIter T)
    (hwf : it.wf) (h : it.remaining = []) :
    it.next = (none, it) ∧ it.next_back = (none, it) := by
  have hlen := RawIter.length_remaining it hwf
  rw [h] at hlen
  obtain ⟨h1, h2⟩ := hwf
  exact RawIter.next_exhausted it (by simp at hlen; omega)

/-- Repeatedly calling `next` until `None` (the `for _ in &mut self.iter {}`
loops of `IntoIter::drop` and `Drain::drop`, `src/lib.rs` lines 229-233 and
256-260), collecting the values read out and dropped.  The pointer distance
`stop - start` bounds the iteration. -/
def RawIter.exhaustFwd {T : Type} (it : RawIter T) : List T :=
  go (it.stop - it.start) it
where
  go : Nat → RawIter T → List T
    | 0, _ => []
    | n + 1, it =>
      let p := it.next
      match p.1 with
      | some x => x :: go n p.2
      | none => []

theorem RawIter.exhaustFwd_go_eq {T : Type} :
    ∀ (n : Nat) (it : RawIter T), it.wf → it.stop - it.start = n →
      RawIter.exhaustFwd.go n it = it.remaining
  | 0, it, hwf, hn => by
    have hlen := RawIter.length_remaining it hwf
    rw [hn] at hlen
    rw [List.eq_nil_of_length_eq_zero hlen]
    rfl
  | n + 1, it, hwf, hn => by
    have hlt : it.start < it.stop := by omega
    obtain ⟨x, it', hnext, hwf', hrem, -, -⟩ := RawIter.next_of_lt it hwf hlt
    have hn' : it'.stop - it'.start = n := by
      have h1 := RawIter.length_remaining it hwf
      have h2 := RawIter.length_remaining it' hwf'
      rw [hrem] at h1
      simp only [List.length_cons] at h1
      omega
    rw [hrem, RawIter.exhaustFwd.go, hnext]
    simp only
    rw [RawIter.exhaustFwd_go_eq n it' hwf' hn']

/-- While a `RawIter` is well formed, exhausting it forward reads out exactly
the elements it had not yet yielded, in order. -/
theorem RawIter.exhaustFwd_eq {T : Type} (it : RawIter T) (hwf : it.wf) :
    it.exhaustFwd = it.remaining :=
  RawIter.exhaustFwd_go_eq (it.stop - it.start) it hwf rfl

/-- `IntoIter<T>` (`src/lib.rs` lines 192-195): owns the `RawVec` (abstracted
to its capacity, held only so that the allocation is released once when the
iterator is dropped) and a `RawIter` over the elements. -/
structure IntoIter (T : Type) where
  bufCap : Nat
  iter : RawIter T
deriving DecidableEq, Repr

/-- `Vec::into_iter` (`src/lib.rs` lines 197-211): builds a `RawIter` over the
initialized slots and moves the `RawVec` out of the `Vec` (the `Vec` binding
is consumed and its destructor suppressed with `mem::forget`). -/
def Vec.into_iter {T : Type} (v : Vec T) : IntoIter T :=
  { bufCap := v.cap, iter := RawIter.new v.data }

/-- `IntoIter::next` delegates to the raw iterator (`src/lib.rs` lines 214-217). -/
def IntoIter.next {T : Type} (it : IntoIter T) : Option T × IntoIter T :=
  let p := it.iter.next
  (p.1, { it with iter := p.2 })

/-- `IntoIter::next_back` delegates to the raw iterator (`src/lib.rs` lines 224-227). -/
def IntoIter.next_back {T : Type} (it : IntoIter T) : Option T × IntoIter T :=
  let p := it.iter.next_back
  (p.1, { it with iter := p.2 })

/-- `IntoIter::size_hint` delegates to the raw iterator (`src/lib.rs` lines 218-220). -/
def IntoIter.size_hint {T : Type} (it : IntoIter T) : Nat × Option Nat :=
  it.iter.size_hint

/-- `IntoIter::drop` (`src/lib.rs` lines 229-233): iterate the raw iterator to
exhaustion, dropping each not-yet-yielded element; returns the values dropped
(the owned `RawVec` is then released by its own destructor). -/
def IntoIter.dropped {T : Type} (it : IntoIter T) : List T :=
  it.iter.exhaustFwd

/-- `Drain<'a, T>` (`src/lib.rs` lines 236-239): a marker borrow of the `Vec`
plus a `RawIter` over the previously initialized slots. -/
structure Drain (T : Type) where
  iter : RawIter T
deriving DecidableEq, Repr

/-- `Drain::next` delegates to the raw iterator (`src/lib.rs` lines 241-244). -/
def Drain.next {T : Type} (d : Drain T) : Option T × Drain T :=
  let p := d.iter.next
  (p.1, ⟨p.2⟩)

/-- `Drain::next_back` delegates to the raw iterator (`src/lib.rs` lines 250-253). -/
def Drain.next_back {T : Type} (d : Drain T) : Option T × Drain T :=
  let p := d.iter.next_back
  (p.1, ⟨p.2⟩)

/-- `Drain::size_hint` delegates to the raw iterator (`src/lib.rs` lines 245-247). -/
def Drain.size_hint {T : Type} (d : Drain T) : Nat × Option Nat :=
  d.iter.size_hint

/-- `Drain::drop` (`src/lib.rs` lines 256-260): iterate the raw iterator to
exhaustion, dropping each not-yet-yielded element; returns the values dropped. -/
def Drain.dropped {T : Type} (d : Drain T) : List T :=
  d.iter.exhaustFwd

/-- `Vec::drain` (`src/lib.rs` lines 262-273): build a `RawIter` over the
initialized slots, then immediately set the `Vec`'s length to 0, leaving its
capacity and allocation untouched.  Returns the extractor and the state of
the borrowed `Vec` as observable after the call. -/
def Vec.drain {T : Type} (v : Vec T) : Drain T × Vec T :=
  (⟨RawIter.new v.data⟩, { v with data := [] })

/-- `Vec::drop` (`src/lib.rs` lines 122-130): when the capacity is nonzero,
pop in a loop until empty, dropping each popped element; returns the values
dropped (last slot first).  The `RawVec` destructor then releases the
allocation. -/
def Vec.dropElems {T : Type} (v : Vec T) : List T :=
  if v.cap = 0 then [] else go v.data.length v
where
  go : Nat → Vec T → List T
    | 0, _ => []
    | n + 1, v =>
      let p := v.pop
      match p.1 with
      | some x => x :: go n p.2
      | none => []

theorem Vec.push_data {T : Type} (v : Vec T) (x : T) :
    (v.push x).data = v.data ++ [x] := rfl

theorem Vec.foldl_push_data {T : Type} (v : Vec T) (xs : List T) :
    (xs.foldl Vec.push v).data = v.data ++ xs := by
  induction xs generalizing v with
  | nil => simp
  | cons x xs ih =>
    simp only [List.foldl_cons, ih, Vec.push_data, List.append_assoc,
      List.cons_append, List.nil_append]

theorem Vec.pop_nonempty {T : Type} (v : Vec T) (l : List T) (a : T)
    (h : v.data = l ++ [a]) :
    v.pop = (some a, { v with data := l }) := by
  unfold Vec.pop
  rw [h]
  simp

theorem Vec.popN_all {T : Type} (v : Vec T) :
    Vec.popN v.data.length v = (v.data.reverse, { v with data := [] }) := by
  generalize hl : v.data = l
  induction l using List.reverseRecOn generalizing v with
  | nil =>
    simp only [hl, List.length_nil, Vec.popN, List.reverse_nil]
    cases v; simp_all
  | append_singleton l a ih =>
    have hpop := Vec.pop_nonempty v l a hl
    simp only [hl, List.length_append, List.length_singleton, Vec.popN, hpop,
      List.reverse_append, List.reverse_singleton, List.singleton_append]
    have := ih { v with data := l } rfl
    simp only [this]

/-- The mutating operations a caller can apply to a `Vec` (`push`, `pop`,
`insert`, `remove`, `drain`; `drain` is applied as borrow-and-abandon, whose
effect on the `Vec` is the length truncation). -/
inductive Op (T : Type) where
  | push (x : T)
  | pop
  | insert (index : Nat) (x : T)
  | remove (index : Nat)
  | drain
deriving DecidableEq, Repr

/-- One operation applied to a container state; a panic aborts the run. -/
def stepOp {T : Type} (v : Vec T) : Op T → Except String (Vec T)
  | .push x => Except.ok (v.push x)
  | .pop => Except.ok (v.pop).2
  | .insert i x => v.insert i x
  | .remove i => (v.remove i).map Prod.snd
  | .drain => Except.ok (v.drain).2

/-- A whole client run: the states reachable from `Vec::new` are exactly the
successful results of `runOps`. -/
def runOps {T : Type} (ops : List (Op T)) : Except String (Vec T) :=
  ops.foldlM stepOp Vec.new

/-- The length/capacity invariant of the container. -/
def Vec.inv {T : Type} (v : Vec T) : Prop :=
  v.data.length ≤ v.cap

instance {T : Type} (v : Vec T) : Decidable v.inv :=
  inferInstanceAs (Decidable (_ ≤ _))

theorem growCap_lt (cap : Nat) : cap < growCap cap := by
  unfold growCap
  by_cases h : cap = 0
  · simp [h]
  · simp only [if_neg h]
    omega

theorem Vec.inv_push {T : Type} (v : Vec T) (x : T) (h : v.inv) :
    (v.push x).inv := by
  have hg := growCap_lt v.cap
  unfold Vec.inv Vec.push at *
  by_cases hc : v.cap = v.data.length
  · rw [hc] at hg
    simp [hc]
    all_goals omega
  · simp [hc]
    all_goals omega

theorem Vec.inv_pop {T : Type} (v : Vec T) (h : v.inv) : (v.pop).2.inv := by
  unfold Vec.inv Vec.pop at *
  by_cases hc : v.data.length = 0
  · simp [hc]
  · simp [hc, List.length_dropLast]
    all_goals omega

theorem Vec.inv_insert {T : Type} (v : Vec T) (i : Nat) (x : T) (w : Vec T)
    (h : v.inv) (hok : v.insert i x = Except.ok w) : w.inv := by
  unfold Vec.inv Vec.insert at *
  by_cases hle : i ≤ v.data.length
  · simp only [if_pos hle, Except.ok.injEq] at hok
    subst hok
    have hg := growCap_lt v.cap
    by_cases hc : v.data.length = v.cap
    · rw [← hc] at hg ⊢
      simp [List.length_take, List.length_drop]
      all_goals omega
    · simp [hc, List.length_take, List.length_drop]
      all_goals omega
  · simp [if_neg hle] at hok

theorem Vec.inv_remove {T : Type} (v : Vec T) (i : Nat) (p : T × Vec T)
    (h : v.inv) (hok : v.remove i = Except.ok p) : p.2.inv := by
  unfold Vec.inv Vec.remove at *
  by_cases hlt : i < v.data.length
  · simp only [dif_pos hlt, Except.ok.injEq] at hok
    subst hok
    simp [List.length_take, List.length_drop]
    omega
  · simp [dif_neg hlt] at hok

theorem Vec.inv_drain {T : Type} (v : Vec T) : (v.drain).2.inv := by
  simp [Vec.inv, Vec.drain]

theorem stepOp_inv {T : Type} (v w : Vec T) (op : Op T) (h : v.inv)
    (hok : stepOp v op = Except.ok w) : w.inv := by
  cases op with
  | push x =>
    cases (show Except.ok (v.push x) = Except.ok w from hok)
    exact Vec.inv_push v x h
  | pop =>
    cases (show Except.ok (v.pop).2 = Except.ok w from hok)
    exact Vec.inv_pop v h
  | insert i x => exact Vec.inv_insert v i x w h hok
  | remove i =>
    simp only [stepOp] at hok
    cases hr : v.remove i with
    | error e =>
      rw [hr] at hok
      cases (show (Except.error e : Except String (Vec T)) = Except.ok w from hok)
    | ok p =>
      rw [hr] at hok
      cases (show Except.ok p.2 = Except.ok w from hok)
      exact Vec.inv_remove v i p h hr
  | drain =>
    cases (show Except.ok (v.drain).2 = Except.ok w from hok)
    exact Vec.inv_drain v

theorem foldlM_stepOp_inv {T : Type} :
    ∀ (ops : List (Op T)) (v₀ v : Vec T), v₀.inv →
      List.foldlM stepOp v₀ ops = Except.ok v → v.inv
  | [], v₀, v, h, hok => by
    cases (show Except.ok v₀ = Except.ok v from hok)
    exact h
  | op :: ops, v₀, v, h, hok => by
    rw [List.foldlM_cons] at hok
    cases hs : stepOp v₀ op with
    | error e =>
      rw [hs] at hok
      cases (show (Except.error e : Except String (Vec T)) = Except.ok v from hok)
    | ok v₁ =>
      rw [hs] at hok
      exact foldlM_stepOp_inv ops v₁ v (stepOp_inv v₀ v₁ op h hs) hok

theorem Vec.dropElems_go_eq {T : Type} :
    ∀ (n : Nat) (v : Vec T), v.data.length = n →
      Vec.dropElems.go n v = v.data.reverse
  | 0, v, h => by
    rw [List.eq_nil_of_length_eq_zero h]
    rfl
  | n + 1, v, h => by
    rcases List.eq_nil_or_concat v.data with hnil | ⟨l, a, hla⟩
    · rw [hnil] at h; simp at h
    · rw [List.concat_eq_append] at hla
      have hpop := Vec.pop_nonempty v l a hla
      have hl : l.length = n := by
        rw [hla] at h; simp at h; omega
      rw [Vec.dropElems.go, hpop]
      simp only [hla, List.reverse_append, List.reverse_singleton,
        List.singleton_append]
      rw [Vec.dropElems_go_eq n { v with data := l } hl]

/-- Under the length/capacity invariant, the `Vec` destructor drops exactly
the initialized elements, last slot first. -/
theorem Vec.dropElems_eq {T : Type} (v : Vec T) (h : v.inv) :
    v.dropElems = v.data.reverse := by
  unfold Vec.dropElems
  by_cases hc : v.cap = 0
  · have : v.data.length = 0 := by
      have := h; unfold Vec.inv at this; omega
    simp [hc, List.eq_nil_of_length_eq_zero this]
  · simp only [if_neg hc]
    exact Vec.dropElems_go_eq v.data.length v rfl

theorem Vec.insert_ok {T : Type} (v : Vec T) (i : Nat) (x : T)
    (h : i ≤ v.data.length) :
    v.insert i x = Except.ok
      { data := v.data.take i ++ x :: v.data.drop i,
        cap := if v.data.length = v.cap then growCap v.cap else v.cap } := by
  simp [Vec.insert, h]

theorem Vec.insert_contents {T : Type} (v : Vec T) (i : Nat) (x : T)
    (h : i ≤ v.data.length) :
    ∃ w, v.insert i x = Except.ok w ∧
      w.data = v.data.take i ++ x :: v.data.drop i ∧
      w.data.length = v.data.length + 1 := by
  refine ⟨_, Vec.insert_ok v i x h, rfl, ?_⟩
  simp [List.length_take, List.length_drop]
  omega

theorem Vec.insert_zero_data {T : Type} (v : Vec T) (x : T) :
    ∃ w, v.insert 0 x = Except.ok w ∧ w.data = x :: v.data := by
  refine ⟨_, Vec.insert_ok v 0 x (Nat.zero_le _), ?_⟩
  simp

theorem foldlM_insert_zero {T : Type} :
    ∀ (xs : List T) (v₀ : Vec T),
      ∃ w, List.foldlM (fun v x => Vec.insert v 0 x) v₀ xs = Except.ok w ∧
        w.data = xs.reverse ++ v₀.data
  | [], v₀ => ⟨v₀, by simp [List.foldlM_nil]; rfl, by simp⟩
  | x :: xs, v₀ => by
    obtain ⟨v₁, hok, hdata⟩ := Vec.insert_zero_data v₀ x
    obtain ⟨w, hrun, hw⟩ := foldlM_insert_zero xs v₁
    refine ⟨w, ?_, ?_⟩
    · rw [List.foldlM_cons, hok]
      exact hrun
    · rw [hw, hdata]
      simp

theorem growCap_iterate (n : Nat) : growCap^[n + 1] 0 = 2 ^ n := by
  induction n with
  | zero => simp [growCap]
  | succ n ih =>
    rw [Function.iterate_succ_apply', ih]
    have h2 : (2 : Nat) ^ n ≠ 0 := by simp
    unfold growCap
    rw [if_neg h2, pow_succ]

/-- C1: for every list of values pushed in order onto a newly created `Vec`,
`n` successive `pop` calls return the values in reverse push order (`Some`
each time), and the `(n+1)`-th `pop` returns `None` — a representable
absence, not an error. -/
theorem claim_C1_push_pop_lifo {T : Type} (l : List T) :
    (Vec.popN l.length (l.foldl Vec.push Vec.new)).1 = l.reverse ∧
    ((Vec.popN l.length (l.foldl Vec.push Vec.new)).2).pop.1 = none := by
  have hdata : (l.foldl Vec.push Vec.new).data = l := by
    rw [Vec.foldl_push_data]
    rfl
  have hall := Vec.popN_all (l.foldl Vec.push Vec.new)
  rw [hdata] at hall
  rw [hall]
  exact ⟨rfl, rfl⟩

/-- C3: `drain` sets the `Vec`'s length to 0 at creation of the extractor,
leaves its capacity (and allocation) untouched, and the emptied `Vec` accepts
new appends starting from slot 0. -/
theorem claim_C3_drain_empties_and_reuse {T : Type} (v : Vec T) (xs : List T) :
    (v.drain).2.data = [] ∧
    (v.drain).2.cap = v.cap ∧
    (xs.foldl Vec.push (v.drain).2).data = xs := by
  refine ⟨rfl, rfl, ?_⟩
  rw [Vec.foldl_push_data]
  rfl

/-- C4: `insert i x` with `i ≤ length` succeeds and produces contents
`e0..e(i-1), x, ei..e(n-1)` with length `n + 1`; repeatedly inserting
`0, 1, …, k-1` at index 0 yields `k-1, …, 1, 0` read front-to-back. -/
theorem claim_C4_insert_contents {T : Type} :
    (∀ (v : Vec T) (i : Nat) (x : T), i ≤ v.data.length →
      ∃ w, v.insert i x = Except.ok w ∧
        w.data = v.data.take i ++ x :: v.data.drop i ∧
        w.data.length = v.data.length + 1) ∧
    (∀ k : Nat,
      ∃ w, List.foldlM (fun v x => Vec.insert v 0 x) Vec.new (List.range k) =
          Except.ok w ∧
        w.data = (List.range k).reverse) := by
  constructor
  · intro v i x h
    exact Vec.insert_contents v i x h
  · intro k
    obtain ⟨w, hrun, hw⟩ := foldlM_insert_zero (List.range k) Vec.new
    exact ⟨w, hrun, by simpa [Vec.new] using hw⟩

/-- C5: inserting `x` at a valid index `i` and immediately removing at `i`
returns `x` and restores the prior contents and length. -/
theorem claim_C5_insert_remove_inverse {T : Type} (v : Vec T) (i : Nat)
    (x : T) (h : i ≤ v.data.length) :
    ∃ w u, v.insert i x = Except.ok w ∧
      w.remove i = Except.ok (x, u) ∧
      u.data = v.data ∧ u.data.length = v.data.length := by
  obtain ⟨w, hok, hdata, hlen⟩ := Vec.insert_contents v i x h
  have hl1 : (v.data.take i).length = i := List.length_take_of_le h
  have hi : i < w.data.length := by omega
  have hremove : w.remove i = Except.ok (w.data.get ⟨i, hi⟩,
      { w with data := w.data.take i ++ w.data.drop (i + 1) }) := by
    unfold Vec.remove
    rw [dif_pos hi]
  have hget : w.data.get ⟨i, hi⟩ = x := by
    have h9 : w.data[i]? = some x := by
      rw [hdata, List.getElem?_append_right (by simp [hl1])]
      rw [hl1]
      simp
    rw [List.getElem?_eq_getElem hi] at h9
    have h10 := Option.some.inj h9
    simpa using h10
  have hrest : w.data.take i ++ w.data.drop (i + 1) = v.data := by
    rw [hdata, List.take_append_eq_append_take, List.drop_append_eq_append_drop,
      hl1, Nat.sub_self]
    have h2 : i + 1 - i = 1 := by omega
    rw [h2]
    simp only [List.take_zero, List.append_nil, List.drop_succ_cons,
      List.drop_zero]
    have h3 : (v.data.take i).take i = v.data.take i := by
      simp [List.take_take]
    have h4 : (v.data.take i).drop (i + 1) = [] := by
      apply List.drop_eq_nil_of_le
      omega
    rw [h3, h4]
    simp [List.take_append_drop]
  refine ⟨w, { w with data := w.data.take i ++ w.data.drop (i + 1) }, hok, ?_, hrest, ?_⟩
  · rw [hremove, hget]
  · rw [hrest]

/-- C2: converting a `Vec` into the consuming iterator and performing any
interleaving of forward (`next`) and backward (`next_back`) pulls yields each
element exactly once with no overlap (the forward yields, the still-unyielded
elements, and the backward yields in reverse always recompose the original
contents); pure forward pulls yield the elements in original order, pure
backward pulls in reverse order, and every pull after exhaustion returns
`None`. -/
theorem claim_C2_into_iter_pulls {T : Type} (v : Vec T) (ds : List Bool) :
    ((runPulls ds (v.into_iter).iter).1 ++
        (runPulls ds (v.into_iter).iter).2.2.remaining ++
        (runPulls ds (v.into_iter).iter).2.1.reverse = v.data) ∧
    ((runPulls (List.replicate v.data.length true) (v.into_iter).iter).1 =
        v.data ∧
      (runPulls (List.replicate v.data.length true) (v.into_iter).iter).2.1 =
        []) ∧
    ((runPulls (List.replicate v.data.length false) (v.into_iter).iter).2.1 =
        v.data.reverse ∧
      (runPulls (List.replicate v.data.length false) (v.into_iter).iter).1 =
        []) ∧
    (∀ es : List Bool,
      (runPulls es (v.into_iter).iter).2.2.remaining = [] →
        (runPulls es (v.into_iter).iter).2.2.next.1 = none ∧
        (runPulls es (v.into_iter).iter).2.2.next_back.1 = none) := by
  have hit : (v.into_iter).iter = RawIter.new v.data := rfl
  have hwf := RawIter.wf_new v.data
  have hrem := RawIter.remaining_new v.data
  have hn : (RawIter.new v.data).stop - (RawIter.new v.data).start =
      v.data.length := by
    simp [RawIter.new]
  refine ⟨?_, ?_, ?_, ?_⟩
  · rw [hit]
    conv_rhs => rw [← hrem]
    exact (runPulls_decomp ds (RawIter.new v.data) hwf).2
  · rw [hit]
    obtain ⟨fin, hrun, -, -⟩ :=
      runPulls_replicate_true v.data.length (RawIter.new v.data) hwf hn
    rw [hrun, hrem]
    exact ⟨rfl, rfl⟩
  · rw [hit]
    obtain ⟨fin, hrun, -, -⟩ :=
      runPulls_replicate_false v.data.length (RawIter.new v.data) hwf hn
    rw [hrun, hrem]
    exact ⟨rfl, rfl⟩
  · intro es hnil
    rw [hit] at hnil ⊢
    have hd := (runPulls_decomp es (RawIter.new v.data) hwf).1
    have hex := RawIter.exhausted_of_remaining_nil _ hd hnil
    exact ⟨by rw [hex.1], by rw [hex.2]⟩

theorem claim_C2_witness :
    ((runPulls [true, true] (Vec.into_iter (⟨[5, 7], 2⟩ : Vec Nat)).iter).2.2.remaining = []) ∧
    ((runPulls [true, true] (Vec.into_iter (⟨[5, 7], 2⟩ : Vec Nat)).iter).2.2.next.1 = none ∧
      (runPulls [true, true] (Vec.into_iter (⟨[5, 7], 2⟩ : Vec Nat)).iter).2.2.next_back.1 = none) :=
  ⟨by decide,
    (claim_C2_into_iter_pulls (⟨[5, 7], 2⟩ : Vec Nat) [true, true]).2.2.2
      [true, true] (by decide)⟩

theorem claim_C4_witness :
    (1 ≤ (⟨[10, 20], 2⟩ : Vec Nat).data.length) ∧
    (∃ w, (⟨[10, 20], 2⟩ : Vec Nat).insert 1 5 = Except.ok w ∧
      w.data = (⟨[10, 20], 2⟩ : Vec Nat).data.take 1 ++
        5 :: (⟨[10, 20], 2⟩ : Vec Nat).data.drop 1 ∧
      w.data.length = (⟨[10, 20], 2⟩ : Vec Nat).data.length + 1) :=
  ⟨by decide, claim_C4_insert_contents.1 ⟨[10, 20], 2⟩ 1 5 (by decide)⟩

theorem claim_C5_witness :
    (1 ≤ (⟨[1, 2, 3], 3⟩ : Vec Nat).data.length) ∧
    (∃ w u, (⟨[1, 2, 3], 3⟩ : Vec Nat).insert 1 9 = Except.ok w ∧
      w.remove 1 = Except.ok (9, u) ∧
      u.data = (⟨[1, 2, 3], 3⟩ : Vec Nat).data ∧
      u.data.length = (⟨[1, 2, 3], 3⟩ : Vec Nat).data.length) :=
  ⟨by decide, claim_C5_insert_remove_inverse ⟨[1, 2, 3], 3⟩ 1 9 (by decide)⟩

/-- C6: `insert` raises the fatal precondition violation (panic
"index out of bounds") exactly when the index exceeds the length, and
completes otherwise; `remove` raises it exactly when the index is not below
the length, and completes otherwise. -/
theorem claim_C6_precondition_violation {T : Type} (v : Vec T) (i : Nat)
    (x : T) :
    (v.insert i x = Except.error "index out of bounds" ↔
      v.data.length < i) ∧
    ((∃ w, v.insert i x = Except.ok w) ↔ i ≤ v.data.length) ∧
    (v.remove i = Except.error "index out of bounds" ↔
      v.data.length ≤ i) ∧
    ((∃ p, v.remove i = Except.ok p) ↔ i < v.data.length) := by
  refine ⟨?_, ?_, ?_, ?_⟩
  · constructor
    · intro he
      by_contra hle
      push_neg at hle
      rw [Vec.insert_ok v i x hle] at he
      cases he
    · intro hlt
      unfold Vec.insert
      rw [if_neg (by omega)]
  · constructor
    · rintro ⟨w, hw⟩
      by_contra hgt
      push_neg at hgt
      unfold Vec.insert at hw
      rw [if_neg (by omega)] at hw
      cases hw
    · intro hle
      exact ⟨_, Vec.insert_ok v i x hle⟩
  · unfold Vec.remove
    by_cases hlt : i < v.data.length
    · rw [dif_pos hlt]
      constructor
      · intro he; cases he
      · intro hle; omega
    · rw [dif_neg hlt]
      constructor
      · intro _; omega
      · intro _; rfl
  · unfold Vec.remove
    by_cases hlt : i < v.data.length
    · rw [dif_pos hlt]
      exact ⟨fun _ => hlt, fun _ => ⟨_, rfl⟩⟩
    · rw [dif_neg hlt]
      constructor
      · rintro ⟨p, hp⟩; cases hp
      · intro hc; exact absurd hc hlt

/-- C7: `grow` fails with the fatal "capacity overflow" panic exactly when
the requested allocation byte size (the new capacity times the element size)
reaches the platform's addressable-size limit `isize::MAX`, for any element
size a Rust type can have; a successful `grow` always delivers the full
(never truncated) new capacity. -/
theorem claim_C7_capacity_overflow (sz cap : Nat) (hsz : sz < isizeMax) :
    (growChecked sz cap = Except.error "capacity overflow" ↔
      isizeMax ≤ growCap cap * sz) ∧
    (∀ c, growChecked sz cap = Except.ok c → c = growCap cap) := by
  by_cases h : cap = 0
  · constructor
    · rw [growChecked, if_pos h, growCap, if_pos h]
      constructor
      · intro he; cases he
      · intro hge; exact absurd hge (by omega)
    · intro c hc
      rw [growChecked, if_pos h] at hc
      rw [growCap, if_pos h]
      exact (Except.ok.inj hc).symm
  · constructor
    · simp only [growChecked, if_neg h]
      rw [growCap, if_neg h]
      by_cases hov : cap * 2 * sz ≥ isizeMax
      · rw [if_pos hov]
        simp [hov]
      · rw [if_neg hov]
        constructor
        · intro he; cases he
        · intro hge; exact absurd hge hov
    · intro c hc
      rw [growCap, if_neg h]
      simp only [growChecked, if_neg h] at hc
      by_cases hov : cap * 2 * sz ≥ isizeMax
      · rw [if_pos hov] at hc; cases hc
      · rw [if_neg hov] at hc; exact (Except.ok.inj hc).symm

theorem claim_C7_witness :
    (8 < isizeMax) ∧
    growChecked 8 (2 ^ 61) = Except.error "capacity overflow" :=
  ⟨by decide,
    (claim_C7_capacity_overflow 8 (2 ^ 61) (by decide)).1.mpr (by decide)⟩

/-- C8: every state reachable from `Vec::new` by `push`, `pop`, `insert`,
`remove`, and `drain` satisfies `length ≤ capacity`, and successive `grow`
calls starting from capacity 0 yield capacities 1, 2, 4, 8, … (the `n+1`-th
growth yields `2 ^ n`). -/
theorem claim_C8_invariant_and_doubling {T : Type} :
    (∀ (ops : List (Op T)) (v : Vec T), runOps ops = Except.ok v →
      v.data.length ≤ v.cap) ∧
    (∀ n : Nat, growCap^[n + 1] 0 = 2 ^ n) := by
  constructor
  · intro ops v hok
    exact foldlM_stepOp_inv ops Vec.new v (by simp [Vec.inv, Vec.new]) hok
  · exact growCap_iterate

theorem claim_C8_witness :
    (runOps [Op.push (3 : Nat)] = Except.ok (⟨[3], 1⟩ : Vec Nat)) ∧
    (⟨[3], 1⟩ : Vec Nat).data.length ≤ (⟨[3], 1⟩ : Vec Nat).cap :=
  ⟨rfl, claim_C8_invariant_and_doubling.1 [Op.push 3] ⟨[3], 1⟩ rfl⟩

/-- C9: along every exit path — partial interleaved iteration followed by an
early drop of a consuming iterator, partial iteration followed by an early
drop of a drain extractor (whose source `Vec` then destroys nothing further),
or plain destruction of the `Vec` — the elements handed to the caller and the
elements dropped together account for every constructed element exactly once,
with zero outstanding. -/
theorem claim_C9_no_leak_no_double_free {T : Type} (v : Vec T)
    (ds : List Bool) (hinv : v.inv) :
    ((runPulls ds (v.into_iter).iter).1 ++
        (IntoIter.mk (v.into_iter).bufCap
          (runPulls ds (v.into_iter).iter).2.2).dropped ++
        (runPulls ds (v.into_iter).iter).2.1.reverse = v.data) ∧
    ((runPulls ds (v.drain).1.iter).1 ++
        (Drain.mk (runPulls ds (v.drain).1.iter).2.2).dropped ++
        (runPulls ds (v.drain).1.iter).2.1.reverse = v.data) ∧
    ((v.drain).2.dropElems = []) ∧
    (v.dropElems.reverse = v.data) := by
  have hwf := RawIter.wf_new v.data
  have hrem := RawIter.remaining_new v.data
  have hd := runPulls_decomp ds (RawIter.new v.data) hwf
  have he := RawIter.exhaustFwd_eq (runPulls ds (RawIter.new v.data)).2.2 hd.1
  refine ⟨?_, ?_, ?_, ?_⟩
  · show (runPulls ds (RawIter.new v.data)).1 ++
        (runPulls ds (RawIter.new v.data)).2.2.exhaustFwd ++
        (runPulls ds (RawIter.new v.data)).2.1.reverse = v.data
    rw [he]
    conv_rhs => rw [← hrem]
    exact hd.2
  · show (runPulls ds (RawIter.new v.data)).1 ++
        (runPulls ds (RawIter.new v.data)).2.2.exhaustFwd ++
        (runPulls ds (RawIter.new v.data)).2.1.reverse = v.data
    rw [he]
    conv_rhs => rw [← hrem]
    exact hd.2
  · have h0 : ((v.drain).2).inv := by simp [Vec.inv, Vec.drain]
    have := Vec.dropElems_eq (v.drain).2 h0
    simpa [Vec.drain] using this
  · rw [Vec.dropElems_eq v hinv, List.reverse_reverse]

theorem claim_C9_witness :
    (⟨[1, 2], 2⟩ : Vec Nat).inv ∧
    (((runPulls [true] (Vec.into_iter (⟨[1, 2], 2⟩ : Vec Nat)).iter).1 ++
        (IntoIter.mk (Vec.into_iter (⟨[1, 2], 2⟩ : Vec Nat)).bufCap
          (runPulls [true] (Vec.into_iter (⟨[1, 2], 2⟩ : Vec Nat)).iter).2.2).dropped ++
        (runPulls [true] (Vec.into_iter (⟨[1, 2], 2⟩ : Vec Nat)).iter).2.1.reverse = [1, 2]) ∧
      ((runPulls [true] ((⟨[1, 2], 2⟩ : Vec Nat).drain).1.iter).1 ++
        (Drain.mk (runPulls [true] ((⟨[1, 2], 2⟩ : Vec Nat).drain).1.iter).2.2).dropped ++
        (runPulls [true] ((⟨[1, 2], 2⟩ : Vec Nat).drain).1.iter).2.1.reverse = [1, 2]) ∧
      (((⟨[1, 2], 2⟩ : Vec Nat).drain).2.dropElems = []) ∧
      ((⟨[1, 2], 2⟩ : Vec Nat).dropElems.reverse = [1, 2])) :=
  ⟨by decide, claim_C9_no_leak_no_double_free ⟨[1, 2], 2⟩ [true] (by decide)⟩

/-- C10: after any interleaving of pulls, `size_hint` of the consuming
iterator and of the drain extractor returns `(n, Some n)` where `n` is exactly
the number of elements remaining to be yielded. -/
theorem claim_C10_size_hint_exact {T : Type} (v : Vec T) (ds : List Bool) :
    (IntoIter.mk (v.into_iter).bufCap
        (runPulls ds (v.into_iter).iter).2.2).size_hint =
      ((runPulls ds (v.into_iter).iter).2.2.remaining.length,
        some (runPulls ds (v.into_iter).iter).2.2.remaining.length) ∧
    (Drain.mk (runPulls ds (v.drain).1.iter).2.2).size_hint =
      ((runPulls ds (v.drain).1.iter).2.2.remaining.length,
        some (runPulls ds (v.drain).1.iter).2.2.remaining.length) := by
  have hwf := RawIter.wf_new v.data
  have h1 := (runPulls_decomp ds (RawIter.new v.data) hwf).1
  have hlen := RawIter.length_remaining _ h1
  constructor
  · show (runPulls ds (RawIter.new v.data)).2.2.size_hint =
      ((runPulls ds (RawIter.new v.data)).2.2.remaining.length,
        some (runPulls ds (RawIter.new v.data)).2.2.remaining.length)
    rw [RawIter.size_hint, hlen]
  · show (runPulls ds (RawIter.new v.data)).2.2.size_hint =
      ((runPulls ds (RawIter.new v.data)).2.2.remaining.length,
        some (runPulls ds (RawIter.new v.data)).2.2.remaining.length)
    rw [RawIter.size_hint, hlen]

end RustVec
